import Mathlib

/-!
Verification development for the risp interpreter (src/main.rs), a minimal
S-expression language with a three stage pipeline: lexer, parser, evaluator.

Modelling conventions:
- Rust i64 values are modelled as Int; i64 addition compiles (in release
  builds) to two's-complement wrapping, modelled by wrap64.
- Fallible code (Rust panics: unwrap on empty pop, out-of-bounds Vec
  indexing, integer-literal parse failure) is modelled with Option, where
  none means the process aborts.
- The Rust recursions on the token stream and on the node tree are encoded
  with an explicit fuel argument so that every definition is a computable
  structural recursion; fuel only bounds the recursion depth, the wrappers
  instantiate it with a value that always suffices (proved by the stability
  lemmas below).
- All inputs appearing in the claims are ASCII, so the Rust Unicode
  classifiers char::is_numeric and char::is_whitespace are modelled by
  Char.isDigit and Char.isWhitespace, which agree with them on ASCII.
-/

namespace Risp

/-- Tokens, mirroring enum Token in src/main.rs. -/
inductive Token where
  | LParen : Token
  | RParen : Token
  | Number : Int → Token
  | Word : String → Token
deriving DecidableEq, Repr

/-- Nodes, mirroring enum Node in src/main.rs. -/
inductive Node where
  | Null : Node
  | List : List Node → Node
  | Number : Int → Node
  | Word : String → Node
deriving Repr

/-- The largest i64 value, 2^63 - 1. -/
def i64Max : Int := 9223372036854775807

/-- The smallest i64 value, -2^63. -/
def i64Min : Int := -9223372036854775808

/-- An integer is representable as an i64. -/
def i64InRange (x : Int) : Prop := i64Min ≤ x ∧ x ≤ i64Max

instance (x : Int) : Decidable (i64InRange x) := by unfold i64InRange; infer_instance

/-- Two's-complement truncation of an integer to 64 bits. -/
def wrap64 (x : Int) : Int := (x + 9223372036854775808) % 18446744073709551616 - 9223372036854775808

/-- Rust i64 addition l + r as compiled in release mode: wrapping. -/
def i64add (l r : Int) : Int := wrap64 (l + r)

/-! ## Lexer (fn lex, src/main.rs lines 41-81)

The Rust lexer reverses the character vector and pops from its back, which
walks the source front to back; we model the remaining characters as a list
whose head is the next character to pop.  The current character ch is held
in its own argument, exactly like the Rust local variable. -/

/-- Comment loop of fn lex: while not chars.is_empty() and ch is not a
newline, pop the next character.  Returns the final ch and the remaining
characters. -/
def skipComment : Char → List Char → Char × List Char
  | ch, [] => (ch, [])
  | ch, c :: rem => if ch = '\n' then (ch, c :: rem) else skipComment c rem

/-- Digit-run loop of fn lex: while ch is numeric and chars is nonempty,
push ch onto the word and pop.  Returns (digits, final ch, remaining).
Note that when the characters run out the final popped character is
dropped even if it is a digit, exactly as in the source. -/
def numLoop : Char → List Char → List Char → List Char × Char × List Char
  | ch, [], acc => (acc, ch, [])
  | ch, c :: rem, acc =>
      if ch.isDigit then numLoop c rem (acc ++ [ch]) else (acc, ch, c :: rem)

/-- Word-run loop of fn lex: while ch is not whitespace and chars is
nonempty, push ch and pop.  Same final-character drop as numLoop. -/
def wordLoop : Char → List Char → List Char → List Char × Char × List Char
  | ch, [], acc => (acc, ch, [])
  | ch, c :: rem, acc =>
      if ch.isWhitespace then (acc, ch, c :: rem) else wordLoop c rem (acc ++ [ch])

/-- Value of a decimal digit string. -/
def digitsToNat : List Char → Nat → Nat
  | [], acc => acc
  | c :: cs, acc => digitsToNat cs (acc * 10 + (c.toNat - 48))

/-- Rust str::parse for i64 applied to a run of decimal digits: fails
(panic through unwrap in the source) when the value exceeds i64::MAX. -/
def parseI64 (ds : List Char) : Option Int :=
  if digitsToNat ds 0 ≤ 9223372036854775807 then some (Int.ofNat (digitsToNat ds 0)) else none

/-- Main loop of fn lex.  The fuel argument decreases on every iteration;
every iteration consumes at least one remaining character, so the initial
fuel chosen in lex below always suffices.  Tokens are accumulated in source
order; fn lex reverses them before returning (see lex). -/
def lexLoop : Nat → Char → List Char → List Token → Option (List Token)
  | 0, _, _, _ => none
  | f + 1, ch, rem, toks =>
    match rem with
    | [] => some toks
    | c :: rem1 =>
      if ch = '(' then lexLoop f c rem1 (toks ++ [Token.LParen])
      else if ch = ')' then lexLoop f c rem1 (toks ++ [Token.RParen])
      else if ch = ';' then
        match skipComment ch (c :: rem1) with
        | (ch2, rem2) => lexLoop f ch2 rem2 toks
      else if ch.isDigit then
        match numLoop ch (c :: rem1) [] with
        | (digits, ch2, rem2) =>
          match parseI64 digits with
          | none => none
          | some n => lexLoop f ch2 rem2 (toks ++ [Token.Number n])
      else if ch.isWhitespace then lexLoop f c rem1 toks
      else
        match wordLoop ch (c :: rem1) [] with
        | (w, ch2, rem2) => lexLoop f ch2 rem2 (toks ++ [Token.Word (String.mk w)])

/-- fn lex, src/main.rs lines 41-81.  The source immediately pops the first
character with unwrap, a panic (none) on empty input.  The accumulated
tokens are reversed before being returned (tokens.reverse() on line 79), so
the returned vector holds the last source token first. -/
def lex (cs : List Char) : Option (List Token) :=
  match cs with
  | [] => none
  | c :: rest => (lexLoop (rest.length + 1) c rest []).map List.reverse

/-- Parenthesis normalization done by fn main before lexing: every open
parenthesis becomes space-open-space and every close parenthesis becomes
space-close-space.  The two sequential String::replace passes of the source
are equivalent to this single pass because the first pass inserts no close
parentheses. -/
def normChars : List Char → List Char
  | [] => []
  | c :: rest =>
    if c = '(' then ' ' :: '(' :: ' ' :: normChars rest
    else if c = ')' then ' ' :: ')' :: ' ' :: normChars rest
    else c :: normChars rest

/-! ## Parser (fn parse, src/main.rs lines 83-97)

fn parse pops tokens from the back of the vector; since fn lex returned the
vector reversed, the parser consumes tokens in source order.  parseAux
below takes the tokens in consumption (source) order, head first.  The fuel
decreases by one on each recursive call; fuel equal to the stream length
always suffices (parseAux_stable below). -/

/-- One accumulation loop of fn parse: returns the nodes accumulated at the
current recursion level together with the unconsumed remainder of the
stream.  An open marker recurses for the nested list, a close marker stops
the current level discarding the marker, exhaustion stops as well. -/
def parseAux : Nat → List Token → List Node × List Token
  | 0, ts => ([], ts)
  | _ + 1, [] => ([], [])
  | f + 1, t :: ts =>
    match t with
    | Token.LParen =>
      match parseAux f ts with
      | (inner, ts1) =>
        match parseAux f ts1 with
        | (rest, ts2) => (Node.List inner :: rest, ts2)
    | Token.RParen => ([], ts)
    | Token.Number n =>
      match parseAux f ts with
      | (rest, ts1) => (Node.Number n :: rest, ts1)
    | Token.Word w =>
      match parseAux f ts with
      | (rest, ts1) => (Node.Word w :: rest, ts1)

/-- fn parse, src/main.rs lines 83-97, on a token stream in consumption
(source) order: always returns the accumulated nodes wrapped in a List
node. -/
def parse (ts : List Token) : Node := Node.List (parseAux ts.length ts).1

/-- The node a non-parenthesis token parses to (fn parse lines 91-92). -/
def atomNode : Token → Node
  | Token.LParen => Node.Null
  | Token.RParen => Node.Null
  | Token.Number n => Node.Number n
  | Token.Word w => Node.Word w

/-! ## Evaluator (fns interpret, interp_node, interp_list, interp_binop,
interp_word, src/main.rs lines 99-148) -/

/-- Whether a node is the Null variant; this is exactly the semantics of
the PartialEq test result != Node::Null in interp_list line 123. -/
def isNull : Node → Bool
  | Node.Null => true
  | _ => false

/-- Result construction of fn interp_binop lines 134-143: the source
re-inspects list index 0; only a Word head equal to the plus sign with two
Number operands returns their i64 sum (release mode: wrapping), every other
combination falls through to Null. -/
def binopApply (l : List Node) (left right : Node) : Node :=
  match l.get? 0, left, right with
  | some (Node.Word w), Node.Number a, Node.Number b =>
      if w = "+" then Node.Number (i64add a b) else Node.Null
  | _, _, _ => Node.Null

/-- Body of fn interp_binop lines 131-144 with the recursive evaluator
abstracted: index 1 is read (a panic, none, when absent), evaluated, then
index 2 likewise, then the result is built by binopApply. -/
def binopGo (ev : Node → Option Node) (l : List Node) : Option Node :=
  (l.get? 1).bind fun x1 =>
    (ev x1).bind fun left =>
      (l.get? 2).bind fun x2 =>
        (ev x2).bind fun right => some (binopApply l left right)

/-- Sequence loop of fn interp_list lines 119-126 with the recursive
evaluator abstracted: evaluate each element in order, abort (none) on a
nested panic, keep each non-Null result in order. -/
def seqGo (ev : Node → Option Node) : List Node → Option (List Node)
  | [] => some []
  | x :: rest =>
    match ev x with
    | none => none
    | some r =>
      match seqGo ev rest with
      | none => none
      | some rs => some (if isNull r then rs else r :: rs)

/-- Fuel-indexed evaluator covering fn interp_node (dispatch on the node
variant, lines 104-110), fn interp_word (always Null, lines 146-148) and fn
interp_list (lines 112-129).  An empty list hits the unguarded indexing of
list[0] on line 113, a panic (none).  A Word head dispatches to the plus
special form or to Null; any other head starts the sequence loop. -/
def interpN : Nat → Node → Option Node
  | 0 => fun _ => none
  | f + 1 => fun n =>
    match n with
    | Node.Null => some Node.Null
    | Node.Number k => some (Node.Number k)
    | Node.Word _ => some Node.Null
    | Node.List [] => none
    | Node.List (Node.Word w :: tl) =>
        if w = "+" then binopGo (interpN f) (Node.Word w :: tl) else some Node.Null
    | Node.List (hd :: tl) => (seqGo (interpN f) (hd :: tl)).map Node.List

/-- Fuel that always suffices for interpN: one more than the nesting depth
of the node.  Defined by well-founded recursion because Node nests List. -/
def nodeFuel : Node → Nat
  | Node.Null => 1
  | Node.Number _ => 1
  | Node.Word _ => 1
  | Node.List [] => 1
  | Node.List (x :: xs) => 1 + max (nodeFuel x) (nodeFuel (Node.List xs))

/-- fn interp_node, src/main.rs lines 104-110.  The recursion depth is
bounded by the depth of the node, so nodeFuel is always sufficient fuel
(interpN_stable below shows the choice of any sufficient fuel is
irrelevant). -/
def interp_node (n : Node) : Option Node := interpN (nodeFuel n) n

/-- fn interp_list, src/main.rs lines 112-129 (as invoked by interp_node on
a List node). -/
def interp_list (l : List Node) : Option Node := interpN (nodeFuel (Node.List l)) (Node.List l)

/-- fn interp_word, src/main.rs lines 146-148. -/
def interp_word (_ : String) : Option Node := some Node.Null

/-- fn interp_binop, src/main.rs lines 131-144, recursing through
interp_node. -/
def interp_binop (l : List Node) : Option Node := binopGo interp_node l

/-- The whole pipeline of fn main on a source string: normalize the
parentheses, lex, parse (popping from the back of the lexed vector, hence
the reverse), evaluate.  none models an aborted process. -/
def runProgram (src : String) : Option Node :=
  match lex (normChars src.toList) with
  | none => none
  | some toks => interp_node (parse toks.reverse)

/-- Result of the plus special form as a function of the two evaluated
operands, when the head of the list is the Word plus. -/
def addRes (left right : Node) : Node :=
  match left, right with
  | Node.Number a, Node.Number b => Node.Number (i64add a b)
  | _, _ => Node.Null

/-- A node whose tree contains no List with a Null element, at any
nesting depth. -/
inductive NoNullElems : Node → Prop where
  | null : NoNullElems Node.Null
  | num : ∀ n, NoNullElems (Node.Number n)
  | word : ∀ w, NoNullElems (Node.Word w)
  | list : ∀ l, (∀ x ∈ l, x ≠ Node.Null) → (∀ x ∈ l, NoNullElems x) →
      NoNullElems (Node.List l)

/-- Programs consisting solely of nested plus forms over integer
literals. -/
inductive AddE where
  | lit : Int → AddE
  | add : AddE → AddE → AddE

/-- The node an AddE program denotes. -/
def AddE.node : AddE → Node
  | AddE.lit n => Node.Number n
  | AddE.add a b => Node.List [Node.Word "+", a.node, b.node]

/-- The mathematical (unbounded) sum an AddE program denotes. -/
def AddE.val : AddE → Int
  | AddE.lit n => n
  | AddE.add a b => a.val + b.val

/-- Every literal and every intermediate sum of the program fits in the
signed 64-bit range. -/
def AddE.ok : AddE → Bool
  | AddE.lit n => decide (i64Min ≤ n ∧ n ≤ i64Max)
  | AddE.add a b => a.ok && b.ok && decide (i64Min ≤ a.val + b.val ∧ a.val + b.val ≤ i64Max)

/-- Tokens that are neither an open nor a close marker. -/
def parenFree (ts : List Token) : Prop :=
  ∀ t ∈ ts, t ≠ Token.LParen ∧ t ≠ Token.RParen

/-! ## Basic equations of the fuel-indexed parser -/

theorem parseAux_zero (ts : List Token) : parseAux 0 ts = ([], ts) := rfl

theorem parseAux_nil_any (f : Nat) : parseAux f [] = ([], []) := by cases f <;> rfl

theorem parseAux_lparen (f : Nat) (ts : List Token) :
    parseAux (f + 1) (Token.LParen :: ts) =
      (Node.List (parseAux f ts).1 :: (parseAux f (parseAux f ts).2).1,
        (parseAux f (parseAux f ts).2).2) := rfl

theorem parseAux_rparen (f : Nat) (ts : List Token) :
    parseAux (f + 1) (Token.RParen :: ts) = ([], ts) := rfl

theorem parseAux_number_tok (f : Nat) (n : Int) (ts : List Token) :
    parseAux (f + 1) (Token.Number n :: ts) =
      (Node.Number n :: (parseAux f ts).1, (parseAux f ts).2) := rfl

theorem parseAux_word_tok (f : Nat) (w : String) (ts : List Token) :
    parseAux (f + 1) (Token.Word w :: ts) =
      (Node.Word w :: (parseAux f ts).1, (parseAux f ts).2) := rfl

/-- The unconsumed remainder never grows. -/
theorem parseAux_rem_length (f : Nat) : ∀ ts : List Token, (parseAux f ts).2.length ≤ ts.length := by
  induction f with
  | zero => intro ts; exact le_rfl
  | succ f ih =>
    intro ts
    cases ts with
    | nil => exact Nat.le_refl 0
    | cons t ts =>
      cases t with
      | LParen => exact le_trans (ih (parseAux f ts).2) (le_trans (ih ts) (Nat.le_succ _))
      | RParen => exact Nat.le_succ _
      | Number n => exact le_trans (ih ts) (Nat.le_succ _)
      | Word w => exact le_trans (ih ts) (Nat.le_succ _)

/-- Any fuel at least the stream length gives the same answer: the fuel in
parse is merely a structural-termination device. -/
theorem parseAux_stable (f : Nat) :
    ∀ (g : Nat) (ts : List Token), ts.length ≤ f → ts.length ≤ g → parseAux f ts = parseAux g ts := by
  induction f with
  | zero =>
    intro g ts hf _
    have hts : ts = [] := List.length_eq_zero.mp (Nat.le_zero.mp hf)
    subst hts
    rw [parseAux_nil_any, parseAux_nil_any]
  | succ f ih =>
    intro g ts hf hg
    cases ts with
    | nil => rw [parseAux_nil_any, parseAux_nil_any]
    | cons t ts =>
      simp only [List.length_cons] at hf hg
      obtain ⟨g1, rfl⟩ : ∃ g1, g = g1 + 1 := ⟨g - 1, by omega⟩
      cases t with
      | LParen =>
        rw [parseAux_lparen, parseAux_lparen]
        have e1 : parseAux f ts = parseAux g1 ts := ih g1 ts (by omega) (by omega)
        have e2 : parseAux f (parseAux g1 ts).2 = parseAux g1 (parseAux g1 ts).2 :=
          ih g1 (parseAux g1 ts).2
            (le_trans (parseAux_rem_length g1 ts) (by omega))
            (le_trans (parseAux_rem_length g1 ts) (by omega))
        rw [e1, e2]
      | RParen => rw [parseAux_rparen, parseAux_rparen]
      | Number n => rw [parseAux_number_tok, parseAux_number_tok, ih g1 ts (by omega) (by omega)]
      | Word w => rw [parseAux_word_tok, parseAux_word_tok, ih g1 ts (by omega) (by omega)]

/-- parse may be computed with any fuel at least the stream length. -/
theorem parse_eq_fuel (f : Nat) (ts : List Token) (h : ts.length ≤ f) :
    parse ts = Node.List (parseAux f ts).1 := by
  unfold parse
  rw [parseAux_stable ts.length f ts le_rfl h]

/-- With no close marker anywhere, the parser consumes the whole stream:
exhaustion closes every open list. -/
theorem parseAux_noClose (f : Nat) :
    ∀ ts : List Token, Token.RParen ∉ ts → ts.length ≤ f → (parseAux f ts).2 = [] := by
  induction f with
  | zero =>
    intro ts _ hf
    have hts : ts = [] := List.length_eq_zero.mp (Nat.le_zero.mp hf)
    subst hts
    rfl
  | succ f ih =>
    intro ts h hf
    cases ts with
    | nil => rfl
    | cons t ts =>
      simp only [List.length_cons] at hf
      have hts : Token.RParen ∉ ts := fun hm => h (List.mem_cons_of_mem _ hm)
      cases t with
      | LParen =>
        rw [parseAux_lparen, ih ts hts (by omega), parseAux_nil_any]
      | RParen => exact absurd (List.mem_cons_self _ _) h
      | Number n => rw [parseAux_number_tok]; exact ih ts hts (by omega)
      | Word w => rw [parseAux_word_tok]; exact ih ts hts (by omega)

/-- Appending the missing close marker to a close-free stream changes
nothing: the unclosed list ends exactly as if it had been closed. -/
theorem parseAux_appendClose (f : Nat) :
    ∀ ts : List Token, Token.RParen ∉ ts → ts.length + 1 ≤ f →
      parseAux f (ts ++ [Token.RParen]) = ((parseAux f ts).1, []) := by
  induction f with
  | zero => intro ts _ hf; exact absurd hf (by omega)
  | succ f ih =>
    intro ts h hf
    cases ts with
    | nil => rfl
    | cons t ts =>
      simp only [List.length_cons] at hf
      have hts : Token.RParen ∉ ts := fun hm => h (List.mem_cons_of_mem _ hm)
      cases t with
      | LParen =>
        rw [List.cons_append, parseAux_lparen, parseAux_lparen,
          ih ts hts (by omega), parseAux_noClose f ts hts (by omega), parseAux_nil_any]
      | RParen => exact absurd (List.mem_cons_self _ _) h
      | Number n =>
        rw [List.cons_append, parseAux_number_tok, parseAux_number_tok, ih ts hts (by omega)]
      | Word w =>
        rw [List.cons_append, parseAux_word_tok, parseAux_word_tok, ih ts hts (by omega)]

/-- A stray close marker after atom tokens ends the current list there,
discarding the marker and everything after it. -/
theorem parseAux_atoms (f : Nat) :
    ∀ (pre post : List Token), parenFree pre → pre.length + 1 ≤ f →
      parseAux f (pre ++ Token.RParen :: post) = (pre.map atomNode, post) := by
  induction f with
  | zero => intro pre post _ hf; exact absurd hf (by omega)
  | succ f ih =>
    intro pre post h hf
    cases pre with
    | nil => rfl
    | cons t pre =>
      simp only [List.length_cons] at hf
      have hpre : parenFree pre := fun x hx => h x (List.mem_cons_of_mem _ hx)
      cases t with
      | LParen => exact absurd rfl (h _ (List.mem_cons_self _ _)).1
      | RParen => exact absurd rfl (h _ (List.mem_cons_self _ _)).2
      | Number n =>
        rw [List.cons_append, parseAux_number_tok, ih pre post hpre (by omega)]
        rfl
      | Word w =>
        rw [List.cons_append, parseAux_word_tok, ih pre post hpre (by omega)]
        rfl

/-! ## Basic equations of the fuel-indexed evaluator -/

theorem interpN_zero (n : Node) : interpN 0 n = none := rfl

theorem interpN_null (f : Nat) : interpN (f + 1) Node.Null = some Node.Null := rfl

theorem interpN_number (f : Nat) (k : Int) :
    interpN (f + 1) (Node.Number k) = some (Node.Number k) := rfl

theorem interpN_word (f : Nat) (w : String) :
    interpN (f + 1) (Node.Word w) = some Node.Null := rfl

theorem interpN_list_nil (f : Nat) : interpN (f + 1) (Node.List []) = none := rfl

theorem interpN_word_head (f : Nat) (w : String) (tl : List Node) :
    interpN (f + 1) (Node.List (Node.Word w :: tl)) =
      if w = "+" then binopGo (interpN f) (Node.Word w :: tl) else some Node.Null := rfl

theorem interpN_null_head (f : Nat) (tl : List Node) :
    interpN (f + 1) (Node.List (Node.Null :: tl)) =
      (seqGo (interpN f) (Node.Null :: tl)).map Node.List := rfl

theorem interpN_number_head (f : Nat) (k : Int) (tl : List Node) :
    interpN (f + 1) (Node.List (Node.Number k :: tl)) =
      (seqGo (interpN f) (Node.Number k :: tl)).map Node.List := rfl

theorem interpN_list_head (f : Nat) (l0 : List Node) (tl : List Node) :
    interpN (f + 1) (Node.List (Node.List l0 :: tl)) =
      (seqGo (interpN f) (Node.List l0 :: tl)).map Node.List := rfl

/-! ## Fuel adequacy and stability -/

theorem nodeFuel_cons (x : Node) (xs : List Node) :
    nodeFuel (Node.List (x :: xs)) = 1 + max (nodeFuel x) (nodeFuel (Node.List xs)) := by
  simp [nodeFuel]

theorem nodeFuel_pos (n : Node) : 0 < nodeFuel n := by
  cases n with
  | Null => simp [nodeFuel]
  | Number k => simp [nodeFuel]
  | Word w => simp [nodeFuel]
  | List l =>
    cases l with
    | nil => simp [nodeFuel]
    | cons x xs => rw [nodeFuel_cons]; omega

theorem nodeFuel_lt_of_mem {x : Node} {l : List Node} (h : x ∈ l) :
    nodeFuel x < nodeFuel (Node.List l) := by
  induction l with
  | nil => cases h
  | cons y ys ih =>
    rw [nodeFuel_cons]
    rcases List.mem_cons.mp h with h1 | h1
    · subst h1; omega
    · have := ih h1; omega

theorem seqGo_congr {ev1 ev2 : Node → Option Node} :
    ∀ l : List Node, (∀ x ∈ l, ev1 x = ev2 x) → seqGo ev1 l = seqGo ev2 l := by
  intro l
  induction l with
  | nil => intro _; rfl
  | cons x xs ih =>
    intro h
    have hx : ev1 x = ev2 x := h x (List.mem_cons_self x xs)
    have hxs := ih fun y hy => h y (List.mem_cons_of_mem x hy)
    simp only [seqGo, hx, hxs]

theorem binopGo_congr {ev1 ev2 : Node → Option Node} (l : List Node)
    (h : ∀ x ∈ l, ev1 x = ev2 x) : binopGo ev1 l = binopGo ev2 l := by
  simp only [binopGo]
  cases h1 : l.get? 1 with
  | none => rfl
  | some x1 =>
    simp only [Option.some_bind, h x1 (List.get?_mem h1)]
    cases ev2 x1 with
    | none => rfl
    | some left =>
      simp only [Option.some_bind]
      cases h2 : l.get? 2 with
      | none => rfl
      | some x2 => simp only [Option.some_bind, h x2 (List.get?_mem h2)]

theorem interpN_stable (f : Nat) :
    ∀ (g : Nat) (n : Node), nodeFuel n ≤ f → nodeFuel n ≤ g → interpN f n = interpN g n := by
  induction f with
  | zero =>
    intro g n h _
    have := nodeFuel_pos n
    omega
  | succ f ih =>
    intro g n hf hg
    have hpos := nodeFuel_pos n
    obtain ⟨g1, rfl⟩ : ∃ g1, g = g1 + 1 := ⟨g - 1, by omega⟩
    cases n with
    | Null => rfl
    | Number k => rfl
    | Word w => rfl
    | List l =>
      cases l with
      | nil => rfl
      | cons hd tl =>
        have hchild : ∀ x ∈ hd :: tl, interpN f x = interpN g1 x := by
          intro x hx
          have hlt := nodeFuel_lt_of_mem hx
          exact ih g1 x (by omega) (by omega)
        cases hd with
        | Word w =>
          rw [interpN_word_head, interpN_word_head]
          by_cases hw : w = "+"
          · rw [if_pos hw, if_pos hw, binopGo_congr _ hchild]
          · rw [if_neg hw, if_neg hw]
        | Null => rw [interpN_null_head, interpN_null_head, seqGo_congr _ hchild]
        | Number k => rw [interpN_number_head, interpN_number_head, seqGo_congr _ hchild]
        | List l0 => rw [interpN_list_head, interpN_list_head, seqGo_congr _ hchild]

theorem interp_node_fuel {n : Node} (f : Nat) (h : nodeFuel n ≤ f) :
    interp_node n = interpN f n :=
  interpN_stable (nodeFuel n) f n le_rfl h

theorem interp_node_list (l : List Node) : interp_node (Node.List l) = interp_list l := rfl

/-! ## Unfolding interp_list through the wrappers -/

theorem interp_list_word_head (w : String) (tl : List Node) :
    interp_list (Node.Word w :: tl) =
      if w = "+" then interp_binop (Node.Word w :: tl) else some Node.Null := by
  have hpos := nodeFuel_pos (Node.List (Node.Word w :: tl))
  obtain ⟨m, hm⟩ : ∃ m, nodeFuel (Node.List (Node.Word w :: tl)) = m + 1 :=
    ⟨nodeFuel (Node.List (Node.Word w :: tl)) - 1, by omega⟩
  have hchild : ∀ x ∈ Node.Word w :: tl, interpN m x = interp_node x := by
    intro x hx
    have hlt := nodeFuel_lt_of_mem hx
    exact (interpN_stable m (nodeFuel x) x (by omega) le_rfl).trans rfl
  show interpN (nodeFuel (Node.List (Node.Word w :: tl))) (Node.List (Node.Word w :: tl)) = _
  rw [hm, interpN_word_head, binopGo_congr _ hchild]
  rfl

theorem interp_list_seq {hd : Node} (tl : List Node) (h : ∀ w, hd ≠ Node.Word w) :
    interp_list (hd :: tl) = (seqGo interp_node (hd :: tl)).map Node.List := by
  have hpos := nodeFuel_pos (Node.List (hd :: tl))
  obtain ⟨m, hm⟩ : ∃ m, nodeFuel (Node.List (hd :: tl)) = m + 1 :=
    ⟨nodeFuel (Node.List (hd :: tl)) - 1, by omega⟩
  have hchild : ∀ x ∈ hd :: tl, interpN m x = interp_node x := by
    intro x hx
    have hlt := nodeFuel_lt_of_mem hx
    exact (interpN_stable m (nodeFuel x) x (by omega) le_rfl).trans rfl
  show interpN (nodeFuel (Node.List (hd :: tl))) (Node.List (hd :: tl)) = _
  rw [hm]
  cases hd with
  | Word w => exact absurd rfl (h w)
  | Null => rw [interpN_null_head, seqGo_congr _ hchild]
  | Number k => rw [interpN_number_head, seqGo_congr _ hchild]
  | List l0 => rw [interpN_list_head, seqGo_congr _ hchild]

/-! ## Characterizing the sequence loop and the plus form -/

theorem isNull_eq_false {y : Node} (h : isNull y = false) : y ≠ Node.Null := by
  intro hy
  subst hy
  simp [isNull] at h

/-- The sequence loop is evaluation of every element in order followed by
dropping the Null results. -/
theorem seqGo_eq_mapM (ev : Node → Option Node) :
    ∀ l : List Node,
      seqGo ev l = (l.mapM ev).map (fun rs => rs.filter fun r => !(isNull r)) := by
  intro l
  induction l with
  | nil => rfl
  | cons x xs ih =>
    rw [List.mapM_cons]
    cases hx : ev x with
    | none => simp [seqGo, hx]
    | some r =>
      simp only [seqGo, hx, ih, Option.some_bind]
      cases hxs : xs.mapM ev with
      | none => rfl
      | some rs =>
        simp only [Option.map_some', Option.some_bind]
        cases hr : isNull r <;> simp [List.filter_cons, hr]

/-- Every element of a successful sequence result is a non-Null evaluation
result of some element of the input list. -/
theorem seqGo_mem {ev : Node → Option Node} :
    ∀ {l : List Node} {rs : List Node}, seqGo ev l = some rs →
      ∀ y ∈ rs, isNull y = false ∧ ∃ x ∈ l, ev x = some y := by
  intro l
  induction l with
  | nil =>
    intro rs h y hy
    simp only [seqGo] at h
    cases h
    cases hy
  | cons x xs ih =>
    intro rs h y hy
    simp only [seqGo] at h
    cases hx : ev x with
    | none => rw [hx] at h; cases h
    | some r =>
      rw [hx] at h
      cases hxs : seqGo ev xs with
      | none => rw [hxs] at h; cases h
      | some rs1 =>
        rw [hxs] at h
        cases h
        cases hr : isNull r with
        | true =>
          rw [hr] at hy
          obtain ⟨h1, x1, hx1, he1⟩ := ih hxs y hy
          exact ⟨h1, x1, List.mem_cons_of_mem _ hx1, he1⟩
        | false =>
          rw [hr] at hy
          rcases List.mem_cons.mp hy with h1 | h1
          · subst h1
            exact ⟨hr, x, List.mem_cons_self _ _, hx⟩
          · obtain ⟨h2, x1, hx1, he1⟩ := ih hxs y h1
            exact ⟨h2, x1, List.mem_cons_of_mem _ hx1, he1⟩

/-- The plus-form result constructor only ever builds a Number or Null. -/
theorem binopApply_cases (l : List Node) (left right : Node) :
    (∃ k, binopApply l left right = Node.Number k) ∨ binopApply l left right = Node.Null := by
  unfold binopApply
  split
  · split
    · exact Or.inl ⟨_, rfl⟩
    · exact Or.inr rfl
  · exact Or.inr rfl

/-- A successful plus form produced its value through binopApply. -/
theorem binopGo_some {ev : Node → Option Node} {l : List Node} {r : Node}
    (h : binopGo ev l = some r) : ∃ left right, r = binopApply l left right := by
  unfold binopGo at h
  cases h1 : l.get? 1 with
  | none => rw [h1] at h; cases h
  | some x1 =>
    rw [h1] at h
    simp only [Option.some_bind] at h
    cases h2 : ev x1 with
    | none => rw [h2] at h; cases h
    | some left =>
      rw [h2] at h
      simp only [Option.some_bind] at h
      cases h3 : l.get? 2 with
      | none => rw [h3] at h; cases h
      | some x2 =>
        rw [h3] at h
        simp only [Option.some_bind] at h
        cases h4 : ev x2 with
        | none => rw [h4] at h; cases h
        | some right =>
          rw [h4] at h
          simp only [Option.some_bind, Option.some.injEq] at h
          exact ⟨left, right, h.symm⟩

/-! ## The no-Null invariant of evaluator results -/

theorem interpN_noNull (f : Nat) :
    ∀ (n r : Node), interpN f n = some r → NoNullElems r := by
  induction f with
  | zero => intro n r h; cases h
  | succ f ih =>
    intro n r h
    cases n with
    | Null => cases h; exact NoNullElems.null
    | Number k => cases h; exact NoNullElems.num k
    | Word w => cases h; exact NoNullElems.null
    | List l =>
      cases l with
      | nil => cases h
      | cons hd tl =>
        have hseq : ∀ hd1 tl1, (seqGo (interpN f) (hd1 :: tl1)).map Node.List = some r →
            NoNullElems r := by
          intro hd1 tl1 h1
          cases hs : seqGo (interpN f) (hd1 :: tl1) with
          | none => rw [hs] at h1; cases h1
          | some rs =>
            rw [hs] at h1
            cases h1
            refine NoNullElems.list rs (fun y hy => ?_) (fun y hy => ?_)
            · exact isNull_eq_false (seqGo_mem hs y hy).1
            · obtain ⟨_, x, _, he⟩ := seqGo_mem hs y hy
              exact ih x y he
        cases hd with
        | Word w =>
          rw [interpN_word_head] at h
          by_cases hw : w = "+"
          · rw [if_pos hw] at h
            obtain ⟨left, right, rfl⟩ := binopGo_some h
            rcases binopApply_cases (Node.Word w :: tl) left right with ⟨k, hk⟩ | hk <;> rw [hk]
            · exact NoNullElems.num k
            · exact NoNullElems.null
          · rw [if_neg hw] at h
            cases h
            exact NoNullElems.null
        | Null => rw [interpN_null_head] at h; exact hseq _ _ h
        | Number k => rw [interpN_number_head] at h; exact hseq _ _ h
        | List l0 => rw [interpN_list_head] at h; exact hseq _ _ h

/-! ## The plus special form through the wrappers -/

theorem binopApply_plus (a b : Node) (rest : List Node) (left right : Node) :
    binopApply (Node.Word "+" :: a :: b :: rest) left right = addRes left right := by
  cases left <;> cases right <;> rfl

/-- Evaluating a plus form with at least two operands: exactly the second
and third list elements are evaluated (in that order), anything after them
is ignored, and the result is the i64 sum for two Numbers and Null
otherwise. -/
theorem interp_list_plus (a b : Node) (rest : List Node) :
    interp_list (Node.Word "+" :: a :: b :: rest) =
      (interp_node a).bind fun left =>
        (interp_node b).bind fun right => some (addRes left right) := by
  rw [interp_list_word_head, if_pos rfl]
  show binopGo interp_node (Node.Word "+" :: a :: b :: rest) = _
  unfold binopGo
  have h1 : (Node.Word "+" :: a :: b :: rest).get? 1 = some a := rfl
  have h2 : (Node.Word "+" :: a :: b :: rest).get? 2 = some b := rfl
  rw [h1, h2]
  simp only [Option.some_bind]
  cases interp_node a with
  | none => rfl
  | some left =>
    simp only [Option.some_bind]
    cases interp_node b with
    | none => rfl
    | some right => simp only [Option.some_bind, binopApply_plus]

/-- Evaluating a plus form with fewer than two operands is the
out-of-bounds panic of interp_binop. -/
theorem interp_list_plus_short (tl : List Node) (h : tl.length ≤ 1) :
    interp_list (Node.Word "+" :: tl) = none := by
  rw [interp_list_word_head, if_pos rfl]
  cases tl with
  | nil => rfl
  | cons a tl1 =>
    cases tl1 with
    | cons b tl2 => simp at h
    | nil =>
      show binopGo interp_node [Node.Word "+", a] = none
      unfold binopGo
      have h1 : ([Node.Word "+", a].get? 1) = some a := rfl
      have h2 : ([Node.Word "+", a].get? 2) = none := rfl
      rw [h1, h2]
      simp only [Option.some_bind]
      cases interp_node a with
      | none => rfl
      | some left => rfl

/-! ## Arithmetic of wrapping 64-bit addition -/

theorem wrap64_eq_self {x : Int} (h1 : i64Min ≤ x) (h2 : x ≤ i64Max) : wrap64 x = x := by
  unfold wrap64
  unfold i64Min at h1
  unfold i64Max at h2
  have h3 : (x + 9223372036854775808) % 18446744073709551616 = x + 9223372036854775808 :=
    Int.emod_eq_of_lt (by omega) (by omega)
  omega

theorem wrap64_lower (x : Int) : i64Min ≤ wrap64 x := by
  unfold wrap64 i64Min
  have h1 : 0 ≤ (x + 9223372036854775808) % 18446744073709551616 :=
    Int.emod_nonneg _ (by norm_num)
  omega

theorem wrap64_upper (x : Int) : wrap64 x ≤ i64Max := by
  unfold wrap64 i64Max
  have h1 : (x + 9223372036854775808) % 18446744073709551616 < 18446744073709551616 :=
    Int.emod_lt_of_pos _ (by norm_num)
  omega

/-! ## Pure nested addition programs -/

theorem AddE_node_notWord (e : AddE) : ∀ w, e.node ≠ Node.Word w := by
  cases e <;> intro w <;> simp [AddE.node]

theorem interp_node_number_eq (k : Int) : interp_node (Node.Number k) = some (Node.Number k) := by
  rw [interp_node_fuel 1 (by norm_num [nodeFuel])]
  rfl

theorem interp_node_null_eq : interp_node Node.Null = some Node.Null := by
  rw [interp_node_fuel 1 (by norm_num [nodeFuel])]
  rfl

theorem interp_node_word_eq (w : String) : interp_node (Node.Word w) = some Node.Null := by
  rw [interp_node_fuel 1 (by norm_num [nodeFuel])]
  rfl

/-- A nested plus tree whose literals and intermediate sums all fit in i64
evaluates to its mathematical sum. -/
theorem AddE_interp {e : AddE} (h : e.ok = true) :
    interp_node e.node = some (Node.Number e.val) := by
  induction e with
  | lit n =>
    rw [show AddE.node (AddE.lit n) = Node.Number n from rfl,
      interp_node_fuel 1 (by simp [nodeFuel])]
    rfl
  | add a b iha ihb =>
    simp only [AddE.ok, Bool.and_eq_true, decide_eq_true_eq] at h
    obtain ⟨⟨ha, hb⟩, hr⟩ := h
    rw [show AddE.node (AddE.add a b) = Node.List [Node.Word "+", a.node, b.node] from rfl,
      interp_node_list, interp_list_plus, iha ha, ihb hb]
    simp only [Option.some_bind]
    rw [show addRes (Node.Number a.val) (Node.Number b.val)
        = Node.Number (i64add a.val b.val) from rfl]
    unfold i64add
    rw [wrap64_eq_self hr.1 hr.2]
    rfl

/-- A single nested plus tree as the whole program: the top-level list has
a non-Word head, so the sequence branch keeps the single Number result. -/
theorem AddE_top {e : AddE} (h : e.ok = true) :
    interp_node (Node.List [e.node]) = some (Node.List [Node.Number e.val]) := by
  rw [interp_node_list, interp_list_seq ([] : List Node) (AddE_node_notWord e)]
  simp [seqGo, AddE_interp h, isNull]

/-! ## Claim theorems -/

/-- C1 (amended): for a well-formed program that is a single nested plus
form over integer literals, provided every literal and every intermediate
sum fits in the signed 64-bit range, the top-level evaluation result is a
List containing the arithmetic sum as a Number, associated according to the
explicit parenthesization; in particular the source program with input
(+ (+ 1 2) 3) evaluates to a List holding Number 6.  The range proviso is
forced by c1_nested_plus_sum_overflow: without it the i64 sum wraps. -/
theorem c1_nested_plus_sum :
    (∀ e : AddE, e.ok = true →
      interp_node (Node.List [e.node]) = some (Node.List [Node.Number e.val])) ∧
    runProgram "(+ (+ 1 2) 3)" = some (Node.List [Node.Number 6]) := by
  refine ⟨fun e h => AddE_top h, ?_⟩
  rw [show runProgram "(+ (+ 1 2) 3)" =
      interp_node (Node.List [Node.List [Node.Word "+",
        Node.List [Node.Word "+", Node.Number 1, Node.Number 2], Node.Number 3]]) from rfl,
    interp_node_fuel 10 (by norm_num [nodeFuel])]
  rfl

/-- C1 counterexample: the program (+ 9223372036854775807 1) consists
solely of a plus form over integer literals accepted by the lexer, yet its
top-level result is the wrapped Number -9223372036854775808, not the
arithmetic sum 9223372036854775808. -/
theorem c1_nested_plus_sum_overflow :
    interp_node (Node.List [(AddE.add (AddE.lit 9223372036854775807) (AddE.lit 1)).node]) =
      some (Node.List [Node.Number (-9223372036854775808)]) ∧
    (-9223372036854775808 : Int) ≠ 9223372036854775807 + 1 := by
  constructor
  · rw [show (AddE.add (AddE.lit 9223372036854775807) (AddE.lit 1)).node =
        Node.List [Node.Word "+", Node.Number 9223372036854775807, Node.Number 1] from rfl,
      interp_node_fuel 10 (by norm_num [nodeFuel])]
    rfl
  · decide

/-- C1 witness: the in-range program (+ (+ 1 2) 3) evaluated through the
general theorem. -/
theorem c1_nested_plus_sum_witness :
    interp_node (Node.List [(AddE.add (AddE.add (AddE.lit 1) (AddE.lit 2)) (AddE.lit 3)).node]) =
      some (Node.List [Node.Number 6]) :=
  c1_nested_plus_sum.1 (AddE.add (AddE.add (AddE.lit 1) (AddE.lit 2)) (AddE.lit 3)) (by decide)

/-- C2: a List headed by the Word plus evaluates exactly its second and
third elements, in that order; if both reduce to Numbers the result is
their (i64) sum as a Number, otherwise Null; elements beyond the third do
not influence the result (the rest of the list is arbitrary on the left and
absent on the right); and a plus list with fewer than three elements is a
fatal out-of-bounds access, modelled as none. -/
theorem c2_plus_form :
    (∀ (a b : Node) (rest : List Node),
      interp_list (Node.Word "+" :: a :: b :: rest) =
        (interp_node a).bind fun left =>
          (interp_node b).bind fun right => some (addRes left right)) ∧
    (∀ tl : List Node, tl.length ≤ 1 → interp_list (Node.Word "+" :: tl) = none) :=
  ⟨interp_list_plus, interp_list_plus_short⟩

/-- C2 witness: (+ 1 2) evaluates to Number 3 and the bare plus list
aborts. -/
theorem c2_plus_form_witness :
    interp_list [Node.Word "+", Node.Number 1, Node.Number 2] = some (Node.Number 3) ∧
    interp_list [Node.Word "+"] = none := by
  constructor
  · rw [c2_plus_form.1 (Node.Number 1) (Node.Number 2) [],
      interp_node_number_eq, interp_node_number_eq]
    rfl
  · exact c2_plus_form.2 [] (by simp)

/-- C3 (amended): for every NONEMPTY List node whose first element is not a
Word, evaluation treats it as a plain sequence: each element is recursively
evaluated in order and the result is a new List of exactly the non-Null
results in the same relative order.  The empty List is excluded because the
code indexes list[0] unconditionally, a fatal out-of-bounds access, shown
in c3_sequence_eval_empty. -/
theorem c3_sequence_eval {hd : Node} (tl : List Node) (h : ∀ w, hd ≠ Node.Word w) :
    interp_list (hd :: tl) =
      ((hd :: tl).mapM interp_node).map
        (fun rs => Node.List (rs.filter fun r => !(isNull r))) := by
  rw [interp_list_seq tl h, seqGo_eq_mapM, Option.map_map]
  rfl

/-- C3 counterexample: evaluating the empty List is a fatal out-of-bounds
access (none), not the empty result List the claim requires. -/
theorem c3_sequence_eval_empty :
    interp_node (Node.List []) = none ∧ (none : Option Node) ≠ some (Node.List []) := by
  constructor
  · rw [interp_node_fuel 1 (by norm_num [nodeFuel])]
    rfl
  · intro h
    cases h

/-- C3 witness: a two-element sequence headed by a Number keeps the Number
and drops the Null. -/
theorem c3_sequence_eval_witness :
    interp_list [Node.Number 1, Node.Null] = some (Node.List [Node.Number 1]) := by
  have hm : ([Node.Number 1, Node.Null] : List Node).mapM interp_node =
      some [Node.Number 1, Node.Null] := by
    rw [List.mapM_cons, List.mapM_cons, List.mapM_nil,
      interp_node_number_eq, interp_node_null_eq]
    rfl
  rw [@c3_sequence_eval (Node.Number 1) [Node.Null] (fun w h => Node.noConfusion h), hm]
  rfl

/-- C4: parse returns exactly one Node and that Node is always a List, and
the node contributed by every recursive invocation (one per open-marker) is
likewise always a List. -/
theorem c4_parse_always_list :
    (∀ ts : List Token, ∃ l, parse ts = Node.List l) ∧
    (∀ (f : Nat) (ts : List Token),
      parseAux (f + 1) (Token.LParen :: ts) =
        (Node.List (parseAux f ts).1 :: (parseAux f (parseAux f ts).2).1,
          (parseAux f (parseAux f ts).2).2)) :=
  ⟨fun ts => ⟨(parseAux ts.length ts).1, rfl⟩, parseAux_lparen⟩

/-- C5: contrary to the claim, the empty input is a fatal unwrap in lex
(the source pops a character before checking emptiness), and although
whitespace-only input does lex to an empty token sequence and parse to an
empty List, evaluating that empty List is a fatal out-of-bounds access, so
the pipeline aborts rather than producing an empty List result. -/
theorem c5_empty_input_fatal :
    lex ([] : List Char) = none ∧
    lex [' '] = some [] ∧
    parse [] = Node.List [] ∧
    runProgram "" = none ∧
    runProgram " " = none := by
  refine ⟨rfl, rfl, rfl, rfl, ?_⟩
  rw [show runProgram " " = interp_node (Node.List []) from rfl,
    interp_node_fuel 1 (by norm_num [nodeFuel])]
  rfl

/-- C6 counterexample: for input foo the lexer drops the final character
(the token is Word fo, not Word foo), and the evaluation result is Null,
not the empty List, because a list headed by any non-plus Word is an
unrecognized operator form. -/
theorem c6_bare_word_counterexample :
    lex "foo".toList = some [Token.Word "fo"] ∧
    (some [Token.Word "fo"] : Option (List Token)) ≠ some [Token.Word "foo"] ∧
    runProgram "foo" = some Node.Null ∧
    Node.Null ≠ Node.List [] := by
  refine ⟨rfl, by decide, ?_, fun h => Node.noConfusion h⟩
  rw [show runProgram "foo" = interp_node (Node.List [Node.Word "fo"]) from rfl,
    interp_node_fuel 3 (by norm_num [nodeFuel])]
  rfl

/-- C6 (amended): for the input program foo, lexing produces the single
token Word fo (the final character is dropped because the input does not
end in whitespace), parsing produces the tree List [Word fo], and
evaluation produces Null (a list whose head is a Word other than plus is an
unrecognized operator form, not a sequence). -/
theorem c6_bare_word_behavior :
    lex "foo".toList = some [Token.Word "fo"] ∧
    parse [Token.Word "fo"] = Node.List [Node.Word "fo"] ∧
    runProgram "foo" = some Node.Null := by
  refine ⟨rfl, rfl, ?_⟩
  rw [show runProgram "foo" = interp_node (Node.List [Node.Word "fo"]) from rfl,
    interp_node_fuel 3 (by norm_num [nodeFuel])]
  rfl

/-- C7: no List produced as a successful evaluator result contains a Null
element, at any nesting depth. -/
theorem c7_no_null_in_results (n r : Node) (h : interp_node n = some r) : NoNullElems r :=
  interpN_noNull (nodeFuel n) n r h

/-- C7 witness: the sequence (1 Null) evaluates to the List holding only
Number 1, which the theorem certifies Null-free. -/
theorem c7_no_null_in_results_witness : NoNullElems (Node.List [Node.Number 1]) := by
  apply c7_no_null_in_results (Node.List [Node.Number 1, Node.Null])
  rw [interp_node_fuel 3 (by norm_num [nodeFuel])]
  rfl

/-- C8: unbalanced parentheses are never parse errors: an open-marker with
no matching close-marker parses exactly as if the close-marker were
appended at the end of the stream, a close-marker with no matching
open-marker ends the top-level list at that point (the marker and
everything after it are dropped), and in every case parse returns a
List. -/
theorem c8_unbalanced_tolerated :
    (∀ ts : List Token, Token.RParen ∉ ts →
      parse (Token.LParen :: ts) = parse (Token.LParen :: (ts ++ [Token.RParen]))) ∧
    (∀ (pre post : List Token), parenFree pre →
      parse (pre ++ Token.RParen :: post) = Node.List (pre.map atomNode)) ∧
    (∀ ts : List Token, ∃ l, parse ts = Node.List l) := by
  refine ⟨?_, ?_, fun ts => ⟨(parseAux ts.length ts).1, rfl⟩⟩
  · intro ts h
    rw [parse_eq_fuel (ts.length + 1) (Token.LParen :: ts) (by simp),
      parse_eq_fuel (ts.length + 1 + 1) (Token.LParen :: (ts ++ [Token.RParen]))
        (by simp only [List.length_cons, List.length_append, List.length_cons,
          List.length_nil]; omega),
      parseAux_lparen, parseAux_lparen,
      parseAux_noClose ts.length ts h le_rfl, parseAux_nil_any,
      parseAux_appendClose (ts.length + 1) ts h (by omega),
      parseAux_stable (ts.length + 1) ts.length ts (by omega) le_rfl]
    rfl
  · intro pre post h
    rw [parse_eq_fuel (pre.length + 1 + post.length) (pre ++ Token.RParen :: post)
        (by simp only [List.length_append, List.length_cons]; omega),
      parseAux_atoms (pre.length + 1 + post.length) pre post h (by omega)]

/-- C8 witness: an unclosed (1 parses exactly like (1) and the stream
1 ) 2 parses to the List holding Number 1, dropping the stray close-marker
and what follows. -/
theorem c8_unbalanced_tolerated_witness :
    parse [Token.LParen, Token.Number 1] =
      parse [Token.LParen, Token.Number 1, Token.RParen] ∧
    parse [Token.Number 1, Token.RParen, Token.Number 2] = Node.List [Node.Number 1] := by
  constructor
  · exact c8_unbalanced_tolerated.1 [Token.Number 1] (by decide)
  · exact c8_unbalanced_tolerated.2.1 [Token.Number 1] [Token.Number 2]
      (by intro t ht; simp at ht; subst ht; exact ⟨Token.noConfusion, Token.noConfusion⟩)

/-- C9 counterexample: on the whitespace-normalized input of (+ 1 2), lex
returns the tokens in REVERSE source order, not source order as the claim
states. -/
theorem c9_lex_source_order_counterexample :
    lex " ( + 1 2 ) ".toList =
      some [Token.RParen, Token.Number 2, Token.Number 1, Token.Word "+", Token.LParen] ∧
    [Token.RParen, Token.Number 2, Token.Number 1, Token.Word "+", Token.LParen] ≠
      [Token.LParen, Token.Word "+", Token.Number 1, Token.Number 2, Token.RParen] :=
  ⟨rfl, by decide⟩

/-- C9 (amended): the token sequence returned by lex is the source order
REVERSED (lex reverses its accumulator before returning): on the
whitespace-normalized input of (+ 1 2) it returns the sequence RParen,
Number 2, Number 1, Word plus, LParen, first source token last.  The parser
pops from the back of that vector, so reversing the lex output and feeding
it to parse recovers the intended tree. -/
theorem c9_lex_reverse_order :
    lex " ( + 1 2 ) ".toList =
      some [Token.RParen, Token.Number 2, Token.Number 1, Token.Word "+", Token.LParen] ∧
    parse ([Token.RParen, Token.Number 2, Token.Number 1, Token.Word "+",
        Token.LParen].reverse) =
      Node.List [Node.List [Node.Word "+", Node.Number 1, Node.Number 2]] :=
  ⟨rfl, rfl⟩

/-- C10: when both operands of a plus form evaluate to Numbers the result
is the wrapping two's-complement 64-bit sum with no overflow check; when
the mathematical sum lies outside the signed 64-bit range that wrapped
result differs from the arithmetic sum; by contrast an out-of-range literal
is fatal already at lex time. -/
theorem c10_wrapping_add :
    (∀ a b : Int, i64InRange a → i64InRange b →
      interp_node (Node.List [Node.Word "+", Node.Number a, Node.Number b]) =
        some (Node.Number (wrap64 (a + b)))) ∧
    (∀ a b : Int, i64InRange a → i64InRange b → ¬ i64InRange (a + b) →
      wrap64 (a + b) ≠ a + b) ∧
    lex "9223372036854775808 ".toList = none := by
  refine ⟨?_, ?_, rfl⟩
  · intro a b _ _
    rw [interp_node_list, interp_list_plus, interp_node_number_eq, interp_node_number_eq]
    rfl
  · intro a b _ _ hab he
    exact hab (he ▸ ⟨wrap64_lower (a + b), wrap64_upper (a + b)⟩)

/-- C10 witness: 2 plus 3 evaluates to the wrapped sum (which is 5), and at
the MAX plus 1 boundary the wrapped sum differs from the arithmetic sum. -/
theorem c10_wrapping_add_witness :
    interp_node (Node.List [Node.Word "+", Node.Number 2, Node.Number 3]) =
      some (Node.Number (wrap64 (2 + 3))) ∧
    wrap64 (9223372036854775807 + 1) ≠ 9223372036854775807 + 1 := by
  constructor
  · exact c10_wrapping_add.1 2 3 (by decide) (by decide)
  · exact c10_wrapping_add.2.1 9223372036854775807 1 (by decide) (by decide) (by decide)

end Risp
